import Mathlib

set_option maxRecDepth 100000

/-!
Verification development for the BJData/UBJSON encoder of the pybj
repository (`bjdata/encoder.py`, `bjdata/markers.py`).

Shallow embedding conventions:
* A Python `bytes` value is a `List Nat` whose entries are the byte values.
* A Python unicode string is represented by its UTF-8 byte sequence, again a
  `List Nat` (so `len(s.encode("utf-8"))` is `s.length`).
* `struct.pack` at a fixed width is modelled exactly, including its
  raising behaviour on out-of-range inputs (`Option`-valued packers).
* The endianness flag `le` of the source (used as a `0`/`1` array index)
  is a `Bool`, `true` meaning little-endian.
* Python object identity (`id(item)`), used only for the circular-reference
  check on containers, is modelled by an explicit `id : Nat` annotation on
  every array/object node.  The `seen_containers` dict of the source, which
  gains an id before a container's children are encoded and drops it again
  right after, is modelled by a `seen : List Nat` argument threaded
  downwards, which realizes exactly that add-then-remove scoping.
-/

namespace BJData

/-! ### Marker bytes, from `bjdata/markers.py` -/

def TYPE_NULL : Nat := 90        -- Z
def TYPE_BOOL_TRUE : Nat := 84   -- T
def TYPE_BOOL_FALSE : Nat := 70  -- F
def TYPE_INT8 : Nat := 105       -- i
def TYPE_UINT8 : Nat := 85       -- U
def TYPE_INT16 : Nat := 73       -- I
def TYPE_UINT16 : Nat := 117     -- u
def TYPE_INT32 : Nat := 108      -- l
def TYPE_UINT32 : Nat := 109     -- m
def TYPE_INT64 : Nat := 76       -- L
def TYPE_UINT64 : Nat := 77      -- M
def TYPE_HIGH_PREC : Nat := 72   -- H
def TYPE_CHAR : Nat := 67        -- C
def TYPE_STRING : Nat := 83      -- S
def OBJECT_START : Nat := 123
def OBJECT_END : Nat := 125
def ARRAY_START : Nat := 91
def ARRAY_END : Nat := 93
def CONTAINER_TYPE : Nat := 36   -- dollar sign
def CONTAINER_COUNT : Nat := 35  -- hash sign

/-! ### Numeric packing (`struct.Struct(...).pack`)

`packBytes le w v` is the `w`-byte two's-complement-free image of the
natural number `v < 2 ^ (8 * w)`, little- or big-endian.  The `Option`
variants model `struct.pack`'s range check: Python raises `struct.error`
when the value does not fit the format, which we render as `none`. -/

def packBytes (le : Bool) (w : Nat) (v : Nat) : List Nat :=
  let lo := (List.range w).map fun k => v / 2 ^ (8 * k) % 256
  if le then lo else lo.reverse

/-- Model of `struct.pack` with an unsigned format of width `w` applied to an
integer: `none` exactly when Python would raise `struct.error`. -/
def packUOpt (le : Bool) (w : Nat) (v : Int) : Option (List Nat) :=
  if 0 ≤ v ∧ v < 2 ^ (8 * w) then some (packBytes le w v.toNat) else none

/-- Model of `struct.pack` with a signed format of width `w` applied to an
integer: `none` exactly when Python would raise `struct.error`.  The packed
image of a negative value is its two's complement, i.e. `v mod 2 ^ (8 * w)`. -/
def packIOpt (le : Bool) (w : Nat) (v : Int) : Option (List Nat) :=
  if -(2 ^ (8 * w - 1)) ≤ v ∧ v < 2 ^ (8 * w - 1) then
    some (packBytes le w (v % (2 ^ (8 * w) : Nat)).toNat)
  else none

/-! ### Decimal strings

`str(Decimal(n))` for an integer `n` is the ordinary base-10 rendering,
with a leading minus sign for negative values. -/

def natDecDigits (m : Nat) : List Nat :=
  if _h : m < 10 then [m] else natDecDigits (m / 10) ++ [m % 10]
termination_by m
decreasing_by exact Nat.div_lt_self (by omega) (by omega)

/-- UTF-8 bytes of `str(Decimal(n))` for an integer `n`. -/
def decStrBytes (n : Int) : List Nat :=
  (if n < 0 then [45] else []) ++ (natDecDigits n.natAbs).map (· + 48)

/-! ### `__encode_int` / `__encode_decimal` (encoder.py lines 122-159)

`__encode_int` recurses into `__encode_decimal` only for integers outside
`[-2^63, 2^64)`, and the recursive length argument then shrinks from `|n|`
to about `log10 |n|`, so the recursion depth is at most 3 for every integer
below `10 ^ 10 ^ 19`.  We make that recursion structural on a fuel argument
fixed to that depth; the exhaustion branch is unreachable for any such
integer. -/

def encodeIntF (le : Bool) : Nat → Int → List Nat
  | 0, _ => []
  | fuel + 1, n =>
    if 0 ≤ n then
      if n < 2 ^ 8 then [TYPE_UINT8, n.toNat]        -- __SMALL_UINTS_ENCODED
      else if n < 2 ^ 16 then TYPE_UINT16 :: packBytes le 2 n.toNat
      else if n < 2 ^ 32 then TYPE_UINT32 :: packBytes le 4 n.toNat
      else if n < 2 ^ 64 then TYPE_UINT64 :: packBytes le 8 n.toNat
      else
        -- __encode_decimal(fp_write, Decimal(item), le): H, length, digits
        TYPE_HIGH_PREC :: encodeIntF le fuel ((decStrBytes n).length : Int)
          ++ decStrBytes n
    else
      if -(2 ^ 7) ≤ n then [TYPE_INT8, (n % (256 : Nat)).toNat]  -- __SMALL_INTS_ENCODED
      else if -(2 ^ 15) ≤ n then TYPE_INT16 :: packBytes le 2 (n % (2 ^ 16 : Nat)).toNat
      else if -(2 ^ 31) ≤ n then TYPE_INT32 :: packBytes le 4 (n % (2 ^ 32 : Nat)).toNat
      else if -(2 ^ 63) ≤ n then TYPE_INT64 :: packBytes le 8 (n % (2 ^ 64 : Nat)).toNat
      else
        TYPE_HIGH_PREC :: encodeIntF le fuel ((decStrBytes n).length : Int)
          ++ decStrBytes n

/-- The bytes `__encode_int(fp_write, n, le)` writes, in order. -/
def encodeInt (le : Bool) (n : Int) : List Nat :=
  encodeIntF le 3 n

/-! ### `__encode_string` (encoder.py lines 190-201) -/

/-- The bytes `__encode_string(fp_write, s, le)` writes, in order; `s` is the
UTF-8 byte sequence of the Python string. -/
def encodeString (le : Bool) (s : List Nat) : List Nat :=
  let length := s.length
  (if length = 1 then [TYPE_CHAR]
   else TYPE_STRING ::
     (if length < 2 ^ 8 then [TYPE_UINT8, length] else encodeInt le length)) ++ s

end BJData

namespace BJData

/-! ### SOA column analysis (`__analyze_string_field`, encoder.py lines 231-271)

A string column is a `List (List Nat)`: the UTF-8 byte sequences of its
values, one per row. -/

/-- Order-preserving first-occurrence deduplication, the effect of
`list(dict.fromkeys(values))`. -/
def dedupAcc (seen : List (List Nat)) : List (List Nat) → List (List Nat)
  | [] => []
  | a :: l => if a ∈ seen then dedupAcc seen l else a :: dedupAcc (a :: seen) l

inductive StrEnc : Type where
  | fixed : StrEnc
  | dict : StrEnc
  | offset : StrEnc
deriving DecidableEq

/-- `unique_values = list(dict.fromkeys(values))`. -/
def strFieldUnique (values : List (List Nat)) : List (List Nat) := dedupAcc [] values

/-- `max_len = max(len(v.encode("utf-8")) for v in values)` (0 on the empty
column, which the caller excludes). -/
def strFieldMaxLen (values : List (List Nat)) : Nat :=
  (values.map List.length).foldl max 0

/-- `total_len = sum(len(v.encode("utf-8")) for v in values)`. -/
def strFieldTotalLen (values : List (List Nat)) : Nat :=
  (values.map List.length).sum

/-- `idx_bytes = 1 if num_unique <= 255 else (2 if num_unique <= 65535 else 4)`. -/
def strFieldIdxBytes (values : List (List Nat)) : Nat :=
  if (strFieldUnique values).length ≤ 255 then 1
  else if (strFieldUnique values).length ≤ 65535 then 2 else 4

/-- `off_bytes = 1 if total_len <= 255 else (2 if total_len <= 65535 else 4)`. -/
def strFieldOffBytes (values : List (List Nat)) : Nat :=
  if strFieldTotalLen values ≤ 255 then 1
  else if strFieldTotalLen values ≤ 65535 then 2 else 4

/-- `fixed_cost = max_len * count`. -/
def strFixedCost (values : List (List Nat)) : Nat :=
  strFieldMaxLen values * values.length

/-- `dict_cost = idx_bytes * count + dict_overhead`, where the overhead adds
2 length-prefix bytes per distinct value. -/
def strDictCost (values : List (List Nat)) : Nat :=
  strFieldIdxBytes values * values.length
    + ((strFieldUnique values).map (fun v => v.length + 2)).sum

/-- `offset_cost = idx_bytes * count + (count + 1) * off_bytes + total_len`. -/
def strOffsetCost (values : List (List Nat)) : Nat :=
  strFieldIdxBytes values * values.length
    + (values.length + 1) * strFieldOffBytes values + strFieldTotalLen values

/-- `__analyze_string_field(values)`: the `(encoding, param, extra)` triple.
The source's dict predicate `num_unique <= count * 0.3` is a Python float
comparison; it is modelled exactly over the integers as
`10 * num_unique <= 3 * count` (the float product `count * 0.3` decides the
comparison against the integer `num_unique` identically for every column
size below `2 ^ 50`). -/
def analyzeStringField (values : List (List Nat)) :
    StrEnc × Nat × Option (List (List Nat)) :=
  if values = [] then (.fixed, 1, none)
  else if 10 * (strFieldUnique values).length ≤ 3 * values.length
       ∧ strDictCost values < strFixedCost values
       ∧ strDictCost values < strOffsetCost values then
    (.dict, strFieldIdxBytes values, some (strFieldUnique values))
  else if 32 < strFieldMaxLen values ∧ strOffsetCost values < strFixedCost values then
    (.offset, strFieldOffBytes values, none)
  else
    (.fixed, strFieldMaxLen values, none)

/-- The modelled storage cost of each string-layout strategy on a column. -/
def strCostOf (values : List (List Nat)) : StrEnc → Nat
  | .fixed => strFixedCost values
  | .dict => strDictCost values
  | .offset => strOffsetCost values

/-- The predicate under which the picker will consider a strategy at all:
fixed is always admissible, dict requires the 30% uniqueness heuristic,
offset requires a maximal length above 32. -/
def strAdmits (values : List (List Nat)) : StrEnc → Prop
  | .fixed => True
  | .dict => 10 * (strFieldUnique values).length ≤ 3 * values.length
  | .offset => 32 < strFieldMaxLen values

/-- `idx_marker = TYPE_UINT8 if enc_param == 1 else (TYPE_UINT16 if enc_param == 2
else TYPE_UINT32)` (encoder.py lines 456-459 and 510-513). -/
def idxMarkerOfParam (p : Nat) : Nat :=
  if p = 1 then TYPE_UINT8 else if p = 2 then TYPE_UINT16 else TYPE_UINT32

/-- Byte width of the pack format the payload writer uses for a given index
marker (`__write_soa_field_value`: `U` is packed as `B`, `u` via
`__PACK_UINT16`, anything else via `__PACK_UINT32`). -/
def widthOfIdxMarker (m : Nat) : Nat :=
  if m = TYPE_UINT8 then 1 else if m = TYPE_UINT16 then 2 else 4

/-- The bytes the offset-string branch of `__write_soa_field_value` writes for
row `index` (encoder.py lines 411-419): the sequential row index packed at the
chosen index-marker width; `none` models the `struct.error` Python raises when
the index does not fit. -/
def writeSoaOffsetCell (le : Bool) (idxMarker : Nat) (index : Nat) : Option (List Nat) :=
  packUOpt le (widthOfIdxMarker idxMarker) (index : Int)

/-- The per-row emissions of an offset-encoded string column of `n` rows:
rows are written with sequential indices `0 .. n-1`. -/
def writeSoaOffsetColumn (le : Bool) (idxMarker : Nat) (n : Nat) :
    Option (List (List Nat)) :=
  (List.range n).mapM (writeSoaOffsetCell le idxMarker)

/-! ### SOA integer columns from mapping-list input
(`__encode_soa`, encoder.py lines 535-559, and the numeric list branch of
`__write_soa_field_value`, lines 361-388).

A column is a `List (Option Int)`; `none` is a Python `None` entry. -/

/-- Marker selection for an integer column of a list-of-dicts input:
`max_val = max(abs(v) for v in values if v is not None)`, then the
`max_val < 128 / 256 / 32768 / 65536 / 2**31 / 2**32` ladder. -/
def chooseIntMarker (values : List (Option Int)) : Nat :=
  let maxVal := ((values.filterMap id).map Int.natAbs).foldl max 0
  if maxVal < 128 then TYPE_INT8
  else if maxVal < 256 then TYPE_UINT8
  else if maxVal < 32768 then TYPE_INT16
  else if maxVal < 65536 then TYPE_UINT16
  else if maxVal < 2 ^ 31 then TYPE_INT32
  else if maxVal < 2 ^ 32 then TYPE_UINT32
  else TYPE_INT64

/-- The bytes the numeric list branch of `__write_soa_field_value` writes for
one cell: `val = values[index] if values[index] is not None else 0`, packed at
the marker's width and signedness; `none` models a `struct.error`.  Only the
integer markers of the source's dispatch chain are modelled (the claims below
concern integer columns only). -/
def writeSoaNumericCell (le : Bool) (marker : Nat) (v : Option Int) : Option (List Nat) :=
  let val := v.getD 0
  if marker = TYPE_INT8 then packIOpt le 1 val
  else if marker = TYPE_UINT8 then packUOpt le 1 val
  else if marker = TYPE_INT16 then packIOpt le 2 val
  else if marker = TYPE_UINT16 then packUOpt le 2 val
  else if marker = TYPE_INT32 then packIOpt le 4 val
  else if marker = TYPE_UINT32 then packUOpt le 4 val
  else if marker = TYPE_INT64 then packIOpt le 8 val
  else if marker = TYPE_UINT64 then packUOpt le 8 val
  else none

/-! ### SOA offset trailer (`__encode_soa`, encoder.py lines 598-623) -/

/-- The offset table of an offset-encoded string column: `offsets = [0]`,
then `offsets.append(offsets[-1] + len(e))` for each encoded value. -/
def buildOffsets : Nat → List (List Nat) → List Nat
  | acc, [] => [acc]
  | acc, e :: rest => acc :: buildOffsets (acc + e.length) rest

/-- The concatenated UTF-8 string buffer written right after the offset
table. -/
def soaStringBuffer (values : List (List Nat)) : List Nat := values.flatten

/-- A 257-row string column (one 33-byte string, 222 distinct 1-byte strings,
34 empty strings) on which the layout picker selects the offset encoding with
a 1-byte index width. -/
def overflowColumn : List (List Nat) :=
  List.replicate 34 ([] : List Nat)
    ++ [List.replicate 33 97]
    ++ (List.range 222).map (fun i => [i])

/-! ### Values, containers and the recursive encoder
(`__encode_value` / `__encode_array` / `__encode_object`,
encoder.py lines 626-823)

Only the value shapes the claims quantify over are modelled: strings, null,
booleans, integers, arrays and objects.  Container nodes carry the Python
object identity as an explicit `id` field. -/

mutual
inductive HVal : Type where
  | vnull : HVal
  | vtrue : HVal
  | vfalse : HVal
  | vint (n : Int) : HVal
  | vstr (s : List Nat) : HVal
  | varr (id : Nat) (elems : HList) : HVal
  | vobj (id : Nat) (entries : HPairs) : HVal
deriving DecidableEq
inductive HList : Type where
  | nil : HList
  | cons (v : HVal) (vs : HList) : HList
deriving DecidableEq
inductive HPairs : Type where
  | nil : HPairs
  | cons (key : List Nat) (v : HVal) (rest : HPairs) : HPairs
deriving DecidableEq
end

def hlen : HList → Nat
  | .nil => 0
  | .cons _ vs => hlen vs + 1

def plen : HPairs → Nat
  | .nil => 0
  | .cons _ _ rest => plen rest + 1

/-- Encoder configuration: the `dump` keyword arguments the claims below
depend on.  `sort_keys` (which only permutes the entry iteration order of an
object before the identical per-entry emission), the float policy flags, the
bytes-marker flag and the `default`/`soa_format` hooks play no role in any
claim and are omitted from the modelled configuration. -/
structure EncCfg : Type where
  containerCount : Bool
  le : Bool
deriving DecidableEq

/-- The source's defaults: `container_count=False, islittle=True`. -/
def cfg0 : EncCfg := ⟨false, true⟩

inductive EncErr : Type where
  | circularReference : EncErr
deriving DecidableEq

instance {ε α : Type} [DecidableEq ε] [DecidableEq α] : DecidableEq (Except ε α) :=
  fun a b => by
    cases a with
    | error e => cases b with
      | error f =>
          exact if h : e = f then isTrue (by rw [h])
            else isFalse (by intro hc; cases hc; exact h rfl)
      | ok _ => exact isFalse (by intro hc; cases hc)
    | ok x => cases b with
      | error _ => exact isFalse (by intro hc; cases hc)
      | ok y =>
          exact if h : x = y then isTrue (by rw [h])
            else isFalse (by intro hc; cases hc; exact h rfl)

/-- The length-prefix chunk written before a mapping key's raw bytes
(encoder.py lines 800-804). -/
def keyPrefix (le : Bool) (k : List Nat) : List Nat :=
  if k.length < 2 ^ 8 then [TYPE_UINT8, k.length] else encodeInt le (k.length : Int)

mutual
/-- The chunk sequence `__encode_value` writes for one value, or the error it
raises.  `seen` is the set of ids of the currently open containers. -/
def encodeV (cfg : EncCfg) (seen : List Nat) : HVal → Except EncErr (List (List Nat))
  | .vstr s => .ok [encodeString cfg.le s]
  | .vnull => .ok [[TYPE_NULL]]
  | .vtrue => .ok [[TYPE_BOOL_TRUE]]
  | .vfalse => .ok [[TYPE_BOOL_FALSE]]
  | .vint n => .ok [encodeInt cfg.le n]
  | .varr id elems =>
      if id ∈ seen then .error .circularReference
      else do
        let kids ← encodeL cfg (id :: seen) elems
        .ok ([[ARRAY_START]]
          ++ (if cfg.containerCount then [[CONTAINER_COUNT], encodeInt cfg.le (hlen elems : Int)] else [])
          ++ kids
          ++ (if cfg.containerCount then [] else [[ARRAY_END]]))
  | .vobj id entries =>
      if id ∈ seen then .error .circularReference
      else do
        let body ← encodeP cfg (id :: seen) entries
        .ok ([[OBJECT_START]]
          ++ (if cfg.containerCount then [[CONTAINER_COUNT], encodeInt cfg.le (plen entries : Int)] else [])
          ++ body
          ++ (if cfg.containerCount then [] else [[OBJECT_END]]))
def encodeL (cfg : EncCfg) (seen : List Nat) : HList → Except EncErr (List (List Nat))
  | .nil => .ok []
  | .cons v vs => do
      let b ← encodeV cfg seen v
      let bs ← encodeL cfg seen vs
      .ok (b ++ bs)
def encodeP (cfg : EncCfg) (seen : List Nat) : HPairs → Except EncErr (List (List Nat))
  | .nil => .ok []
  | .cons k v rest => do
      let b ← encodeV cfg seen v
      let bs ← encodeP cfg seen rest
      .ok ([keyPrefix cfg.le k, k] ++ b ++ bs)
end

mutual
/-- Does every root-to-node path starting below `seen` meet only fresh
container ids?  This is the "no value participates in its own open container
graph" condition: a shared value may occur twice, but no container contains
(at any depth) a container carrying its own id. -/
def pathIdsOkV (seen : List Nat) : HVal → Bool
  | .varr id elems => !(decide (id ∈ seen)) && pathIdsOkL (id :: seen) elems
  | .vobj id entries => !(decide (id ∈ seen)) && pathIdsOkP (id :: seen) entries
  | _ => true
def pathIdsOkL (seen : List Nat) : HList → Bool
  | .nil => true
  | .cons v vs => pathIdsOkV seen v && pathIdsOkL seen vs
def pathIdsOkP (seen : List Nat) : HPairs → Bool
  | .nil => true
  | .cons _ v rest => pathIdsOkV seen v && pathIdsOkP seen rest
end

/-- The observable shape of the self-referential array `a = [1, a]`: when the
encoder descends into the second element it meets the array's own id again
(the inner element list is never inspected, so it is irrelevant). -/
def cyclicArr : HVal := .varr 0 (.cons (.vint 1) (.cons (.varr 0 .nil) .nil))

/-- A shared but acyclic value: `b = [1]; a = [b, b]` — the same identity
occurs twice without containing itself. -/
def sharedArr : HVal :=
  .varr 0 (.cons (.varr 1 (.cons (.vint 1) .nil))
    (.cons (.varr 1 (.cons (.vint 1) .nil)) .nil))

/-- Per-child chunk groups of an array body: `some cs` iff every child
encodes, with `cs` listing each child's own chunk sequence. -/
def encodeEachL (cfg : EncCfg) (seen : List Nat) : HList → Option (List (List (List Nat)))
  | .nil => some []
  | .cons v vs => do
      let b ← (encodeV cfg seen v).toOption
      let bs ← encodeEachL cfg seen vs
      some (b :: bs)

/-- Per-entry chunk groups of an object body: each group is the key's length
prefix, the raw key bytes, then the value's chunks. -/
def encodeEachP (cfg : EncCfg) (seen : List Nat) : HPairs → Option (List (List (List Nat)))
  | .nil => some []
  | .cons k v rest => do
      let b ← (encodeV cfg seen v).toOption
      let bs ← encodeEachP cfg seen rest
      some (([keyPrefix cfg.le k, k] ++ b) :: bs)

/-! ### Drivers (`dump` lines 878-1002, `dumpb` lines 1005-1029)

`dump` hands every chunk, in order, to the sink's `write`; `dumpb` runs
`dump` against a fresh `BytesIO` — an in-memory buffer whose `write` appends
and whose `getvalue` returns the accumulated contents. -/

/-- `dump(obj, fp, ...)` for a sink with state `σ` and method `write`:
the final sink state, or the encoder's error. -/
def dump {σ : Type} (write : σ → List Nat → σ) (fp : σ) (cfg : EncCfg) (obj : HVal) :
    Except EncErr σ :=
  (encodeV cfg [] obj).map (fun chunks => chunks.foldl write fp)

/-- `BytesIO` write: append the chunk to the buffer. -/
def bytesIOWrite (s : List Nat) (chunk : List Nat) : List Nat := s ++ chunk

/-- `dumpb(obj, ...)`: dump into a fresh `BytesIO` and return `getvalue()`. -/
def dumpb (cfg : EncCfg) (obj : HVal) : Except EncErr (List Nat) :=
  dump bytesIOWrite [] cfg obj

/-! ### Claim C1: integer width selection -/

/-- Widths, in bytes, of the unsigned/signed marker ladder, ascending. -/
def intWidths : List Nat := [1, 2, 4, 8]

def uMarkerOfWidth (w : Nat) : Nat :=
  if w = 1 then TYPE_UINT8 else if w = 2 then TYPE_UINT16
  else if w = 4 then TYPE_UINT32 else TYPE_UINT64

def iMarkerOfWidth (w : Nat) : Nat :=
  if w = 1 then TYPE_INT8 else if w = 2 then TYPE_INT16
  else if w = 4 then TYPE_INT32 else TYPE_INT64

/-- An unsigned width `w` (in bytes) fits `n` iff `0 ≤ n < 2 ^ (8w)`. -/
def uFits (n : Int) (w : Nat) : Prop := 0 ≤ n ∧ n < 2 ^ (8 * w)

/-- A signed width `w` (in bytes) fits `n` iff `-2^(8w-1) ≤ n < 2^(8w-1)`. -/
def iFits (n : Int) (w : Nat) : Prop := -(2 ^ (8 * w - 1)) ≤ n ∧ n < 2 ^ (8 * w - 1)

instance (n : Int) (w : Nat) : Decidable (uFits n w) := by unfold uFits; infer_instance
instance (n : Int) (w : Nat) : Decidable (iFits n w) := by unfold iFits; infer_instance

/-! ## Theorems -/

theorem packBytes_one (le : Bool) (v : Nat) : packBytes le 1 v = [v % 256] := by
  cases le <;> simp [packBytes, List.range_succ, List.range_zero]

theorem uFits_one (n : Int) : uFits n 1 ↔ 0 ≤ n ∧ n < 256 := by norm_num [uFits]

theorem uFits_two (n : Int) : uFits n 2 ↔ 0 ≤ n ∧ n < 65536 := by norm_num [uFits]

theorem uFits_four (n : Int) : uFits n 4 ↔ 0 ≤ n ∧ n < 4294967296 := by norm_num [uFits]

theorem uFits_eight (n : Int) : uFits n 8 ↔ 0 ≤ n ∧ n < 18446744073709551616 := by
  norm_num [uFits]

theorem iFits_one (n : Int) : iFits n 1 ↔ -128 ≤ n ∧ n < 128 := by norm_num [iFits]

theorem iFits_two (n : Int) : iFits n 2 ↔ -32768 ≤ n ∧ n < 32768 := by norm_num [iFits]

theorem iFits_four (n : Int) : iFits n 4 ↔ -2147483648 ≤ n ∧ n < 2147483648 := by
  norm_num [iFits]

theorem iFits_eight (n : Int) :
    iFits n 8 ↔ -9223372036854775808 ≤ n ∧ n < 9223372036854775808 := by
  norm_num [iFits]

/-- Claim C1.  For every integer, `__encode_int` emits the smallest unsigned
width among u8/u16/u32/u64 that fits when the value is non-negative, the
smallest signed width among i8/i16/i32/i64 that fits when it is negative, and
for values outside `[-2^63, 2^64 - 1]` it falls through to the high-precision
decimal encoding, whose marker is `H`. -/
theorem encodeInt_width_selection (le : Bool) (n : Int) :
    (0 ≤ n → n < 2 ^ 64 →
      ∃ w ∈ intWidths, encodeInt le n = uMarkerOfWidth w :: packBytes le w n.toNat ∧
        uFits n w ∧ ∀ w2 ∈ intWidths, uFits n w2 → w ≤ w2)
  ∧ (n < 0 → -(2 ^ 63) ≤ n →
      ∃ w ∈ intWidths,
        encodeInt le n = iMarkerOfWidth w :: packBytes le w (n % ((2 ^ (8 * w) : Nat) : Int)).toNat ∧
        iFits n w ∧ ∀ w2 ∈ intWidths, iFits n w2 → w ≤ w2)
  ∧ ((2 ^ 64 ≤ n ∨ n < -(2 ^ 63)) → (encodeInt le n).head? = some TYPE_HIGH_PREC) := by
  refine ⟨fun h0 h64 => ?_, fun hneg h63 => ?_, fun hout => ?_⟩
  · have h64n : n < 18446744073709551616 := by omega
    by_cases h1 : n < 256
    · refine ⟨1, by decide, ?_, by rw [uFits_one]; omega, ?_⟩
      · have hm : n.toNat % 256 = n.toNat := Nat.mod_eq_of_lt (by omega)
        simp [encodeInt, encodeIntF, h0, h1, uMarkerOfWidth, packBytes_one, hm]
      · intro w2 hw2 hf
        fin_cases hw2 <;> omega
    · by_cases h2 : n < 65536
      · refine ⟨2, by decide, ?_, by rw [uFits_two]; omega, ?_⟩
        · simp [encodeInt, encodeIntF, h0, h1, h2, uMarkerOfWidth]
        · intro w2 hw2 hf
          fin_cases hw2 <;>
            simp only [uFits_one, uFits_two, uFits_four, uFits_eight] at hf <;> omega
      · by_cases h3 : n < 4294967296
        · refine ⟨4, by decide, ?_, by rw [uFits_four]; omega, ?_⟩
          · simp [encodeInt, encodeIntF, h0, h1, h2, h3, uMarkerOfWidth]
          · intro w2 hw2 hf
            fin_cases hw2 <;>
              simp only [uFits_one, uFits_two, uFits_four, uFits_eight] at hf <;> omega
        · refine ⟨8, by decide, ?_, by rw [uFits_eight]; omega, ?_⟩
          · simp [encodeInt, encodeIntF, h0, h1, h2, h3, h64n, uMarkerOfWidth]
          · intro w2 hw2 hf
            fin_cases hw2 <;>
              simp only [uFits_one, uFits_two, uFits_four, uFits_eight] at hf <;> omega
  · have h0 : ¬ (0 : Int) ≤ n := by omega
    by_cases h1 : -128 ≤ n
    · refine ⟨1, by decide, ?_, by rw [iFits_one]; omega, ?_⟩
      · have hm : (n % (256 : Int)).toNat % 256 = (n % (256 : Int)).toNat :=
          Nat.mod_eq_of_lt (by omega)
        simp [encodeInt, encodeIntF, h0, h1, iMarkerOfWidth, packBytes_one, hm]
      · intro w2 hw2 hf
        fin_cases hw2 <;> omega
    · by_cases h2 : -32768 ≤ n
      · refine ⟨2, by decide, ?_, by rw [iFits_two]; omega, ?_⟩
        · simp [encodeInt, encodeIntF, h0, h1, h2, iMarkerOfWidth]
        · intro w2 hw2 hf
          fin_cases hw2 <;>
            simp only [iFits_one, iFits_two, iFits_four, iFits_eight] at hf <;> omega
      · by_cases h3 : -2147483648 ≤ n
        · refine ⟨4, by decide, ?_, by rw [iFits_four]; omega, ?_⟩
          · simp [encodeInt, encodeIntF, h0, h1, h2, h3, iMarkerOfWidth]
          · intro w2 hw2 hf
            fin_cases hw2 <;>
              simp only [iFits_one, iFits_two, iFits_four, iFits_eight] at hf <;> omega
        · have h63n : -9223372036854775808 ≤ n := by omega
          refine ⟨8, by decide, ?_, by rw [iFits_eight]; omega, ?_⟩
          · simp [encodeInt, encodeIntF, h0, h1, h2, h3, h63n, iMarkerOfWidth]
          · intro w2 hw2 hf
            fin_cases hw2 <;>
              simp only [iFits_one, iFits_two, iFits_four, iFits_eight] at hf <;> omega
  · rcases hout with hbig | hsmall
    · have h0 : (0 : Int) ≤ n := by omega
      have h1 : ¬ n < 256 := by omega
      have h2 : ¬ n < 65536 := by omega
      have h3 : ¬ n < 4294967296 := by omega
      have h4 : ¬ n < 18446744073709551616 := by omega
      simp [encodeInt, encodeIntF, h0, h1, h2, h3, h4]
    · have h0 : ¬ (0 : Int) ≤ n := by omega
      have h1 : ¬ -128 ≤ n := by omega
      have h2 : ¬ -32768 ≤ n := by omega
      have h3 : ¬ -2147483648 ≤ n := by omega
      have h4 : ¬ -9223372036854775808 ≤ n := by omega
      simp [encodeInt, encodeIntF, h0, h1, h2, h3, h4]

/-- Witness for C1 at concrete inputs on both sides of a width boundary. -/
theorem encodeInt_width_selection_witness :
    ((0 : Int) ≤ 300 ∧ (300 : Int) < 2 ^ 64 ∧
      ∃ w ∈ intWidths, encodeInt true 300 = uMarkerOfWidth w :: packBytes true w (300 : Int).toNat ∧
        uFits 300 w ∧ ∀ w2 ∈ intWidths, uFits 300 w2 → w ≤ w2)
  ∧ ((-40000 : Int) < 0 ∧ -(2 ^ 63) ≤ (-40000 : Int) ∧
      ∃ w ∈ intWidths,
        encodeInt true (-40000) =
          iMarkerOfWidth w :: packBytes true w ((-40000 : Int) % ((2 ^ (8 * w) : Nat) : Int)).toNat ∧
        iFits (-40000) w ∧ ∀ w2 ∈ intWidths, iFits (-40000) w2 → w ≤ w2)
  ∧ ((2 ^ 64 ≤ (18446744073709551616 : Int) ∨ (18446744073709551616 : Int) < -(2 ^ 63)) ∧
      (encodeInt true 18446744073709551616).head? = some TYPE_HIGH_PREC) :=
  ⟨⟨by norm_num, by norm_num, (encodeInt_width_selection true 300).1 (by norm_num) (by norm_num)⟩,
   ⟨by norm_num, by norm_num,
    (encodeInt_width_selection true (-40000)).2.1 (by norm_num) (by norm_num)⟩,
   ⟨by norm_num,
    (encodeInt_width_selection true 18446744073709551616).2.2 (by norm_num)⟩⟩

/-- Claim C2, counterexample: the claim says encoding the integer 127 yields
the int8 form `i\x7f`, but the source sends every non-negative integer below
`2^8` through `__SMALL_UINTS_ENCODED`, so 127 encodes as `U\x7f`. -/
theorem encode_127_not_int8_counterexample :
    dumpb cfg0 (.vint 127) = .ok [TYPE_UINT8, 127] ∧
      dumpb cfg0 (.vint 127) ≠ .ok [TYPE_INT8, 127] := by decide

/-- Claim C2 as amended: 127 encodes as `U\x7f` (uint8, like every
non-negative integer below 2^8); 128 as `U\x80`; 255 as `U\xff`; 256 as `u`
followed by `\x00\x01` little-endian or `\x01\x00` big-endian. -/
theorem encode_small_int_boundaries :
    dumpb cfg0 (.vint 127) = .ok [TYPE_UINT8, 0x7f]
  ∧ dumpb cfg0 (.vint 128) = .ok [TYPE_UINT8, 0x80]
  ∧ dumpb cfg0 (.vint 255) = .ok [TYPE_UINT8, 0xff]
  ∧ dumpb cfg0 (.vint 256) = .ok [TYPE_UINT16, 0x00, 0x01]
  ∧ dumpb ⟨false, false⟩ (.vint 256) = .ok [TYPE_UINT16, 0x01, 0x00] := by decide

/-- For a natural number below 256, `__encode_int` produces the precomputed
uint8 pair. -/
theorem encodeInt_small (le : Bool) (m : Nat) (h : m < 256) :
    encodeInt le (m : Int) = [TYPE_UINT8, m] := by
  have h0 : (0 : Int) ≤ (m : Int) := by omega
  have h1 : (m : Int) < 2 ^ 8 := by norm_num; omega
  simp only [encodeInt, encodeIntF, if_pos h0, if_pos h1, Int.toNat_natCast]

/-- Claim C8.  `__encode_string` uses the CHAR marker followed by the single
byte exactly when the UTF-8 length is 1, and otherwise the STRING marker, a
length prefix equal to `__encode_int` of the byte length, and the bytes. -/
theorem encodeString_char_shortcut (le : Bool) (s : List Nat) :
    encodeString le s =
      (if s.length = 1 then TYPE_CHAR :: s
       else TYPE_STRING :: (encodeInt le (s.length : Int) ++ s))
  ∧ ((encodeString le s).head? = some TYPE_CHAR ↔ s.length = 1) := by
  constructor
  · by_cases h : s.length = 1
    · simp [encodeString, h]
    · by_cases hsmall : s.length < 256
      · simp [encodeString, h, hsmall, encodeInt_small le s.length (by omega)]
      · simp [encodeString, h, hsmall]
  · by_cases h : s.length = 1
    · simp [encodeString, h, TYPE_CHAR]
    · by_cases hsmall : s.length < 256 <;>
        simp [encodeString, h, hsmall, TYPE_CHAR, TYPE_STRING]

theorem sum_map_length_dedupAcc_le (seen l : List (List Nat)) :
    ((dedupAcc seen l).map List.length).sum ≤ (l.map List.length).sum := by
  induction l generalizing seen with
  | nil => simp [dedupAcc]
  | cons a t ih =>
      by_cases h : a ∈ seen
      · simp only [dedupAcc, if_pos h, List.map_cons, List.sum_cons]
        exact (ih seen).trans (by omega)
      · simp only [dedupAcc, if_neg h, List.map_cons, List.sum_cons]
        have := ih (a :: seen)
        omega

theorem sum_map_length_add_two (l : List (List Nat)) :
    (l.map (fun v => v.length + 2)).sum = (l.map List.length).sum + 2 * l.length := by
  induction l with
  | nil => simp
  | cons a t ih => simp [ih]; omega

theorem one_le_strFieldOffBytes (values : List (List Nat)) :
    1 ≤ strFieldOffBytes values := by
  unfold strFieldOffBytes
  split
  · omega
  · split <;> omega

/-- When the 30% uniqueness heuristic admits the dictionary layout at all, its
modelled cost is strictly below the offset layout's cost: the per-row index
bytes agree, the dictionary stores each distinct value once (at most the
total length) plus 2 bytes each, while the offset layout stores the whole
buffer plus an `(N+1)`-entry table. -/
theorem strDictCost_lt_strOffsetCost (values : List (List Nat))
    (hadm : 10 * (strFieldUnique values).length ≤ 3 * values.length) :
    strDictCost values < strOffsetCost values := by
  have h1 : ((strFieldUnique values).map List.length).sum ≤ (values.map List.length).sum :=
    sum_map_length_dedupAcc_le [] values
  have h2 := sum_map_length_add_two (strFieldUnique values)
  have h3 := one_le_strFieldOffBytes values
  have h5 : (values.length + 1) ≤ (values.length + 1) * strFieldOffBytes values :=
    Nat.le_mul_of_pos_right _ (by omega)
  unfold strDictCost strOffsetCost strFieldTotalLen
  omega

/-- Claim C3.  On a non-empty string column the picker chooses dict iff the
uniqueness heuristic and both dict cost comparisons hold, otherwise offset iff
the long-string heuristic and its cost comparison hold, otherwise fixed; and
the chosen strategy's modelled cost is smallest among the strategies whose
predicates admit them. -/
theorem analyzeStringField_choice_and_min (values : List (List Nat))
    (hne : values ≠ []) :
    analyzeStringField values =
      (if 10 * (strFieldUnique values).length ≤ 3 * values.length
          ∧ strDictCost values < strFixedCost values
          ∧ strDictCost values < strOffsetCost values then
        (StrEnc.dict, strFieldIdxBytes values, some (strFieldUnique values))
      else if 32 < strFieldMaxLen values ∧ strOffsetCost values < strFixedCost values then
        (StrEnc.offset, strFieldOffBytes values, none)
      else (StrEnc.fixed, strFieldMaxLen values, none))
  ∧ ∀ e, strAdmits values e →
      strCostOf values (analyzeStringField values).1 ≤ strCostOf values e := by
  constructor
  · simp [analyzeStringField, hne]
  · intro e hadm
    by_cases hdict : 10 * (strFieldUnique values).length ≤ 3 * values.length
        ∧ strDictCost values < strFixedCost values
        ∧ strDictCost values < strOffsetCost values
    · have ha : analyzeStringField values =
          (StrEnc.dict, strFieldIdxBytes values, some (strFieldUnique values)) := by
        simp [analyzeStringField, hne, hdict]
      rw [ha]
      cases e with
      | fixed => exact Nat.le_of_lt hdict.2.1
      | dict => exact Nat.le_refl _
      | offset => exact Nat.le_of_lt hdict.2.2
    · by_cases hoff : 32 < strFieldMaxLen values
          ∧ strOffsetCost values < strFixedCost values
      · have ha : analyzeStringField values =
            (StrEnc.offset, strFieldOffBytes values, none) := by
          simp only [analyzeStringField, if_neg hne, if_neg hdict, if_pos hoff]
        rw [ha]
        cases e with
        | fixed => exact Nat.le_of_lt hoff.2
        | offset => exact Nat.le_refl _
        | dict =>
            exfalso
            have hlt := strDictCost_lt_strOffsetCost values hadm
            have : ¬ (strDictCost values < strFixedCost values
                ∧ strDictCost values < strOffsetCost values) := fun hc => hdict ⟨hadm, hc⟩
            have h2 := hoff.2
            omega
      · have ha : analyzeStringField values =
            (StrEnc.fixed, strFieldMaxLen values, none) := by
          simp only [analyzeStringField, if_neg hne, if_neg hdict, if_neg hoff]
        rw [ha]
        cases e with
        | fixed => exact Nat.le_refl _
        | dict =>
            have hlt := strDictCost_lt_strOffsetCost values hadm
            have : ¬ (strDictCost values < strFixedCost values
                ∧ strDictCost values < strOffsetCost values) := fun hc => hdict ⟨hadm, hc⟩
            simp only [strCostOf]
            omega
        | offset =>
            have : ¬ (32 < strFieldMaxLen values
                ∧ strOffsetCost values < strFixedCost values) := hoff
            simp only [strCostOf] at *
            have hadm2 : 32 < strFieldMaxLen values := hadm
            omega

/-- Witness for C3 on a small concrete column of two distinct one-byte
strings (the picker chooses fixed there). -/
theorem analyzeStringField_choice_and_min_witness :
    (([[97], [98]] : List (List Nat)) ≠ []) ∧
    (analyzeStringField [[97], [98]] =
      (if 10 * (strFieldUnique [[97], [98]]).length ≤ 3 * ([[97], [98]] : List (List Nat)).length
          ∧ strDictCost [[97], [98]] < strFixedCost [[97], [98]]
          ∧ strDictCost [[97], [98]] < strOffsetCost [[97], [98]] then
        (StrEnc.dict, strFieldIdxBytes [[97], [98]], some (strFieldUnique [[97], [98]]))
      else if 32 < strFieldMaxLen [[97], [98]]
          ∧ strOffsetCost [[97], [98]] < strFixedCost [[97], [98]] then
        (StrEnc.offset, strFieldOffBytes [[97], [98]], none)
      else (StrEnc.fixed, strFieldMaxLen [[97], [98]], none))
    ∧ ∀ e, strAdmits [[97], [98]] e →
        strCostOf [[97], [98]] (analyzeStringField [[97], [98]]).1 ≤ strCostOf [[97], [98]] e) :=
  ⟨by decide, analyzeStringField_choice_and_min [[97], [98]] (by decide)⟩

/-- Claim C4, code-bug evidence.  On `overflowColumn` (257 rows, total byte
length 255) the picker selects the offset layout with a 1-byte index marker,
but the payload writer then packs the sequential row indices 0..256 at that
width, and row index 256 does not fit one byte: the emission fails (Python
raises `struct.error`), contradicting the claim that every emitted value fits
the chosen width. -/
theorem soa_offset_index_overflow :
    analyzeStringField overflowColumn = (.offset, 1, none)
  ∧ overflowColumn.length = 257
  ∧ idxMarkerOfParam 1 = TYPE_UINT8
  ∧ writeSoaOffsetCell true (idxMarkerOfParam 1) 256 = none
  ∧ writeSoaOffsetColumn true (idxMarkerOfParam 1) overflowColumn.length = none := by
  refine ⟨by decide, by decide, by decide, by decide, by decide⟩

/-- Claim C5, code-bug evidence.  For the one-row integer column `[-128]` the
observed absolute maximum is 128, so the marker ladder selects uint8 — yet
`-128` itself fits the narrowest signed width i8 — and packing `-128`
unsigned at one byte fails (Python raises `struct.error`), contradicting the
claim that every column value is representable in the chosen marker's range. -/
theorem soa_int_marker_overflow :
    chooseIntMarker [some (-128)] = TYPE_UINT8
  ∧ iFits (-128) 1
  ∧ writeSoaNumericCell true (chooseIntMarker [some (-128)]) (some (-128)) = none := by
  refine ⟨by decide, by decide, by decide⟩

theorem buildOffsets_length : ∀ (acc : Nat) (l : List (List Nat)),
    (buildOffsets acc l).length = l.length + 1 := by
  intro acc l
  induction l generalizing acc with
  | nil => simp [buildOffsets]
  | cons e rest ih => simp [buildOffsets, ih]

theorem buildOffsets_head : ∀ (acc : Nat) (l : List (List Nat)),
    (buildOffsets acc l).head? = some acc := by
  intro acc l
  cases l <;> simp [buildOffsets]

theorem buildOffsets_chain : ∀ (acc : Nat) (l : List (List Nat)),
    List.Chain' (· ≤ ·) (buildOffsets acc l) := by
  intro acc l
  induction l generalizing acc with
  | nil => simp [buildOffsets]
  | cons e rest ih =>
      rw [buildOffsets, List.chain'_cons']
      refine ⟨?_, ih (acc + e.length)⟩
      intro h hh
      rw [buildOffsets_head] at hh
      cases hh
      omega

theorem buildOffsets_last : ∀ (acc : Nat) (l : List (List Nat)),
    (buildOffsets acc l).getLast? = some (acc + (l.map List.length).sum) := by
  intro acc l
  induction l generalizing acc with
  | nil => simp [buildOffsets]
  | cons e rest ih =>
      rw [buildOffsets]
      rw [List.getLast?_cons, ih (acc + e.length)]
      simp
      omega

/-- Claim C7.  For every string column on which the picker selected the
offset layout, the trailing offset table has exactly N+1 entries, starts at
zero, is monotonically non-decreasing, and its last entry is the byte length
of the concatenated UTF-8 buffer written right after it. -/
theorem soa_offset_table_integrity (values : List (List Nat))
    (hoff : (analyzeStringField values).1 = .offset) :
    (buildOffsets 0 values).length = values.length + 1
  ∧ (buildOffsets 0 values).head? = some 0
  ∧ List.Chain' (· ≤ ·) (buildOffsets 0 values)
  ∧ (buildOffsets 0 values).getLast? = some (soaStringBuffer values).length := by
  refine ⟨buildOffsets_length 0 values, buildOffsets_head 0 values,
    buildOffsets_chain 0 values, ?_⟩
  rw [buildOffsets_last]
  simp [soaStringBuffer]

theorem bytesIOWrite_foldl (t : List (List Nat)) (s0 : List Nat) :
    t.foldl bytesIOWrite s0 = s0 ++ t.flatten := by
  induction t generalizing s0 with
  | nil => simp
  | cons c rest ih => simp [List.foldl_cons, bytesIOWrite, ih]

/-- Witness for C7 on a concrete offset-selected column: one 100-byte string
and two one-byte strings. -/
theorem soa_offset_table_integrity_witness :
    ((analyzeStringField (List.replicate 100 97 :: [[98], [99]])).1 = StrEnc.offset)
  ∧ ((buildOffsets 0 (List.replicate 100 97 :: [[98], [99]])).length
        = (List.replicate 100 97 :: [[98], [99]]).length + 1
    ∧ (buildOffsets 0 (List.replicate 100 97 :: [[98], [99]])).head? = some 0
    ∧ List.Chain' (· ≤ ·) (buildOffsets 0 (List.replicate 100 97 :: [[98], [99]]))
    ∧ (buildOffsets 0 (List.replicate 100 97 :: [[98], [99]])).getLast?
        = some (soaStringBuffer (List.replicate 100 97 :: [[98], [99]])).length) :=
  ⟨by decide, soa_offset_table_integrity (List.replicate 100 97 :: [[98], [99]]) (by decide)⟩

mutual
theorem encodeOkV (cfg : EncCfg) (seen : List Nat) (v : HVal)
    (h : pathIdsOkV seen v = true) : ∃ bs, encodeV cfg seen v = .ok bs := by
  cases v with
  | vnull => exact ⟨_, rfl⟩
  | vtrue => exact ⟨_, rfl⟩
  | vfalse => exact ⟨_, rfl⟩
  | vint n => exact ⟨_, rfl⟩
  | vstr s => exact ⟨_, rfl⟩
  | varr id elems =>
      simp only [pathIdsOkV, Bool.and_eq_true, Bool.not_eq_true', decide_eq_false_iff_not] at h
      obtain ⟨hid, hl⟩ := h
      obtain ⟨bs, hbs⟩ := encodeOkL cfg (id :: seen) elems hl
      simp only [encodeV, if_neg hid, hbs]
      exact ⟨_, rfl⟩
  | vobj id entries =>
      simp only [pathIdsOkV, Bool.and_eq_true, Bool.not_eq_true', decide_eq_false_iff_not] at h
      obtain ⟨hid, hp⟩ := h
      obtain ⟨bs, hbs⟩ := encodeOkP cfg (id :: seen) entries hp
      simp only [encodeV, if_neg hid, hbs]
      exact ⟨_, rfl⟩
theorem encodeOkL (cfg : EncCfg) (seen : List Nat) (l : HList)
    (h : pathIdsOkL seen l = true) : ∃ bs, encodeL cfg seen l = .ok bs := by
  cases l with
  | nil => exact ⟨_, rfl⟩
  | cons v vs =>
      simp only [pathIdsOkL, Bool.and_eq_true] at h
      obtain ⟨bv, hbv⟩ := encodeOkV cfg seen v h.1
      obtain ⟨bs, hbs⟩ := encodeOkL cfg seen vs h.2
      simp only [encodeL, hbv, hbs]
      exact ⟨_, rfl⟩
theorem encodeOkP (cfg : EncCfg) (seen : List Nat) (ps : HPairs)
    (h : pathIdsOkP seen ps = true) : ∃ bs, encodeP cfg seen ps = .ok bs := by
  cases ps with
  | nil => exact ⟨_, rfl⟩
  | cons k v rest =>
      simp only [pathIdsOkP, Bool.and_eq_true] at h
      obtain ⟨bv, hbv⟩ := encodeOkV cfg seen v h.1
      obtain ⟨bs, hbs⟩ := encodeOkP cfg seen rest h.2
      simp only [encodeP, hbv, hbs]
      exact ⟨_, rfl⟩
end

/-- Claim C6.  Encoding a container whose identity is already on the open
container stack fails with the circular-reference error (shown on the
self-referential array `a = [1, a]`), and since an identity is dropped from
the open set on ascent, every value none of whose containers contains its own
id at any depth — in particular a value shared twice without containing
itself — encodes without error. -/
theorem circular_reference_detection :
    encodeV cfg0 [] cyclicArr = .error .circularReference
  ∧ ∀ (cfg : EncCfg) (v : HVal), pathIdsOkV [] v = true →
      ∃ bs, encodeV cfg [] v = .ok bs :=
  ⟨by decide, fun cfg v h => encodeOkV cfg [] v h⟩

/-- Witness for C6: the shared but acyclic `b = [1]; a = [b, b]` encodes
without error. -/
theorem circular_reference_detection_witness :
    pathIdsOkV [] sharedArr = true ∧ ∃ bs, encodeV cfg0 [] sharedArr = .ok bs :=
  ⟨by decide, circular_reference_detection.2 cfg0 sharedArr (by decide)⟩

theorem encodeEachL_ok (cfg : EncCfg) (seen : List Nat) (l : HList) :
    ∀ (cs : List (List (List Nat))), encodeEachL cfg seen l = some cs →
      encodeL cfg seen l = .ok cs.flatten ∧ cs.length = hlen l := by
  cases l with
  | nil =>
      intro cs h
      simp only [encodeEachL, Option.some.injEq] at h
      subst h
      exact ⟨rfl, rfl⟩
  | cons v vs =>
      intro cs h
      cases hv : encodeV cfg seen v with
      | error e => rw [encodeEachL, hv] at h; simp [Except.toOption] at h
      | ok b =>
          rw [encodeEachL, hv] at h
          cases hvs : encodeEachL cfg seen vs with
          | none => rw [hvs] at h; simp [Except.toOption] at h
          | some bs =>
              rw [hvs] at h
              simp [Except.toOption] at h
              subst h
              obtain ⟨h1, h2⟩ := encodeEachL_ok cfg seen vs bs hvs
              constructor
              · simp only [encodeL, hv, h1, List.flatten_cons]
                rfl
              · simp [hlen, h2]

theorem encodeEachP_ok (cfg : EncCfg) (seen : List Nat) (ps : HPairs) :
    ∀ (cs : List (List (List Nat))), encodeEachP cfg seen ps = some cs →
      encodeP cfg seen ps = .ok cs.flatten ∧ cs.length = plen ps := by
  cases ps with
  | nil =>
      intro cs h
      simp only [encodeEachP, Option.some.injEq] at h
      subst h
      exact ⟨rfl, rfl⟩
  | cons k v rest =>
      intro cs h
      cases hv : encodeV cfg seen v with
      | error e => rw [encodeEachP, hv] at h; simp [Except.toOption] at h
      | ok b =>
          rw [encodeEachP, hv] at h
          cases hvs : encodeEachP cfg seen rest with
          | none => rw [hvs] at h; simp [Except.toOption] at h
          | some bs =>
              rw [hvs] at h
              simp [Except.toOption] at h
              subst h
              obtain ⟨h1, h2⟩ := encodeEachP_ok cfg seen rest bs hvs
              constructor
              · simp only [encodeP, hv, h1, List.flatten_cons, List.append_assoc]
                rfl
              · simp [plen, h2]

/-- Claim C9.  After `[` or `{`, counted mode emits `#` and the container's
count via `__encode_int` and suppresses the terminator; open mode emits no
count and closes with `]` or `}`; and the declared count equals the number of
child values (array) or key/value entries (object) actually emitted. -/
theorem container_counted_layout :
    (∀ (cfg : EncCfg) (seen : List Nat) (id : Nat) (elems : HList)
        (cs : List (List (List Nat))),
      id ∉ seen → encodeEachL cfg (id :: seen) elems = some cs →
      encodeV cfg seen (.varr id elems) = .ok ([[ARRAY_START]]
        ++ (if cfg.containerCount then [[CONTAINER_COUNT], encodeInt cfg.le (hlen elems : Int)]
            else [])
        ++ cs.flatten
        ++ (if cfg.containerCount then [] else [[ARRAY_END]]))
      ∧ cs.length = hlen elems)
  ∧ (∀ (cfg : EncCfg) (seen : List Nat) (id : Nat) (entries : HPairs)
        (cs : List (List (List Nat))),
      id ∉ seen → encodeEachP cfg (id :: seen) entries = some cs →
      encodeV cfg seen (.vobj id entries) = .ok ([[OBJECT_START]]
        ++ (if cfg.containerCount then [[CONTAINER_COUNT], encodeInt cfg.le (plen entries : Int)]
            else [])
        ++ cs.flatten
        ++ (if cfg.containerCount then [] else [[OBJECT_END]]))
      ∧ cs.length = plen entries) := by
  constructor
  · intro cfg seen id elems cs hid hcs
    obtain ⟨h1, h2⟩ := encodeEachL_ok cfg (id :: seen) elems cs hcs
    refine ⟨?_, h2⟩
    simp only [encodeV, if_neg hid, h1]
    rfl
  · intro cfg seen id entries cs hid hcs
    obtain ⟨h1, h2⟩ := encodeEachP_ok cfg (id :: seen) entries cs hcs
    refine ⟨?_, h2⟩
    simp only [encodeV, if_neg hid, h1]
    rfl

/-- Witness for C9: the array `[1, "ab"]` (id 5) and the object
`{"a": 2}` (id 7), each in counted mode. -/
theorem container_counted_layout_witness :
    ((5 : Nat) ∉ ([] : List Nat)
      ∧ encodeEachL ⟨true, true⟩ [5] (.cons (.vint 1) (.cons (.vstr [97, 98]) .nil))
          = some [[[85, 1]], [[83, 85, 2, 97, 98]]]
      ∧ encodeV ⟨true, true⟩ [] (.varr 5 (.cons (.vint 1) (.cons (.vstr [97, 98]) .nil)))
          = .ok ([[ARRAY_START]]
            ++ (if (⟨true, true⟩ : EncCfg).containerCount then
                  [[CONTAINER_COUNT],
                   encodeInt (⟨true, true⟩ : EncCfg).le
                     (hlen (.cons (.vint 1) (.cons (.vstr [97, 98]) .nil)) : Int)]
                else [])
            ++ ([[[85, 1]], [[83, 85, 2, 97, 98]]] : List (List (List Nat))).flatten
            ++ (if (⟨true, true⟩ : EncCfg).containerCount then [] else [[ARRAY_END]]))
        ∧ ([[[85, 1]], [[83, 85, 2, 97, 98]]] : List (List (List Nat))).length
            = hlen (.cons (.vint 1) (.cons (.vstr [97, 98]) .nil)))
  ∧ ((7 : Nat) ∉ ([] : List Nat)
      ∧ encodeEachP ⟨true, true⟩ [7] (.cons [97] (.vint 2) .nil)
          = some [[[85, 1], [97], [85, 2]]]
      ∧ encodeV ⟨true, true⟩ [] (.vobj 7 (.cons [97] (.vint 2) .nil))
          = .ok ([[OBJECT_START]]
            ++ (if (⟨true, true⟩ : EncCfg).containerCount then
                  [[CONTAINER_COUNT],
                   encodeInt (⟨true, true⟩ : EncCfg).le (plen (.cons [97] (.vint 2) .nil) : Int)]
                else [])
            ++ ([[[85, 1], [97], [85, 2]]] : List (List (List Nat))).flatten
            ++ (if (⟨true, true⟩ : EncCfg).containerCount then [] else [[OBJECT_END]]))
        ∧ ([[[85, 1], [97], [85, 2]]] : List (List (List Nat))).length
            = plen (.cons [97] (.vint 2) .nil)) :=
  ⟨⟨by decide, by decide,
    container_counted_layout.1 ⟨true, true⟩ [] 5
      (.cons (.vint 1) (.cons (.vstr [97, 98]) .nil))
      [[[85, 1]], [[83, 85, 2, 97, 98]]] (by decide) (by decide)⟩,
   ⟨by decide, by decide,
    container_counted_layout.2 ⟨true, true⟩ [] 7 (.cons [97] (.vint 2) .nil)
      [[[85, 1], [97], [85, 2]]] (by decide) (by decide)⟩⟩

/-- Claim C10.  `dumpb` returns exactly the byte sequence that `dump` writes
to a fresh in-memory buffer sink with the same value and configuration: the
buffer accumulated by `dump` over any initial contents is those contents
followed by the `dumpb` bytes, and the `dumpb` bytes are the concatenation,
in order, of every chunk the encoder hands to the sink's `write`. -/
theorem dump_dumpb_equivalence (cfg : EncCfg) (obj : HVal) (s0 : List Nat) :
    dump bytesIOWrite s0 cfg obj = (dumpb cfg obj).map (fun bs => s0 ++ bs)
  ∧ dumpb cfg obj = (encodeV cfg [] obj).map List.flatten := by
  have hdump : ∀ (s1 : List Nat), dump bytesIOWrite s1 cfg obj
      = (encodeV cfg [] obj).map (fun chunks => s1 ++ chunks.flatten) := by
    intro s1
    simp only [dump]
    cases h : encodeV cfg [] obj with
    | error e => rfl
    | ok chunks =>
        simp only [Except.map]
        rw [bytesIOWrite_foldl]
  constructor
  · rw [hdump s0]
    unfold dumpb
    rw [hdump []]
    cases h : encodeV cfg [] obj with
    | error e => rfl
    | ok chunks => simp [Except.map]
  · unfold dumpb
    rw [hdump []]
    cases h : encodeV cfg [] obj with
    | error e => rfl
    | ok chunks => simp [Except.map]

end BJData
